import Mathlib

/- Verification of src/MSUtils/ClassESW.py (class MSNoise).

   Modelling conventions for the shallow embedding:
   * numpy float32 values are modelled as exact rationals; where the code can
     produce IEEE special values (divisions by zero), values are wrapped in
     the type FV below, which adds +inf, -inf and NaN.  Rounding and
     finite precision are not modelled.
   * numpy arrays live on the Python heap; estimate_weights copies its input
     (numpy.array(obj, dtype=...) copies, copy=True being the numpy default)
     and then normalises one column of the copy in place.  The heap is
     modelled by an explicit Store (a list of buffers) so that aliasing and
     in-place mutation are observable.
   * External library routines that have no source in this repository and no
     rational closed form (numpy.polyfit, scipy.interpolate.splrep/splev,
     the masked standard deviation, which is irrational in general) are
     taken as function parameters of the embedded definitions.
   * write_toms interacts with a casacore table; those interactions are
     modelled as a trace of events.  Python 2 semantics are assumed for
     self.nrows/10 (floor division on ints; the module imports pyrap, the
     Python 2 era casacore binding); range(a, b, 0) raises ValueError, which
     is rendered as a failed run producing no events.
-/

/-- An IEEE-style numpy value: a finite rational or a special value
    (+inf, -inf, NaN).  Signed zero is not distinguished. -/
inductive FV where
  | fin : ℚ → FV
  | inf : FV
  | ninf : FV
  | nan : FV
deriving DecidableEq

/-- numpy maximum of two values (one reduction step of ndarray.max);
    NaN propagates. -/
def fvMax : FV → FV → FV
  | FV.nan, _ => FV.nan
  | _, FV.nan => FV.nan
  | FV.inf, _ => FV.inf
  | _, FV.inf => FV.inf
  | FV.ninf, b => b
  | a, FV.ninf => a
  | FV.fin a, FV.fin b => FV.fin (max a b)

/-- ndarray.max(): reduction of a one-dimensional array with fvMax; numpy
    raises ValueError on an empty array, rendered as none. -/
def fvListMax : List FV → Option FV
  | [] => none
  | a :: t => some (t.foldl fvMax a)

/-- IEEE division a / b on modelled values (numpy emits a warning and a
    special value on division by zero instead of raising; the sign of zero
    is not modelled, zero denominators count as +0). -/
def fvDiv : FV → FV → FV
  | FV.nan, _ => FV.nan
  | _, FV.nan => FV.nan
  | FV.inf, FV.inf => FV.nan
  | FV.inf, FV.ninf => FV.nan
  | FV.ninf, FV.inf => FV.nan
  | FV.ninf, FV.ninf => FV.nan
  | FV.inf, FV.fin b => if b < 0 then FV.ninf else FV.inf
  | FV.ninf, FV.fin b => if b < 0 then FV.inf else FV.ninf
  | FV.fin _, FV.inf => FV.fin 0
  | FV.fin _, FV.ninf => FV.fin 0
  | FV.fin a, FV.fin b =>
      if b = 0 then (if a = 0 then FV.nan else if a < 0 then FV.ninf else FV.inf)
      else FV.fin (a / b)

/-- The elementwise map weights = 1.0 / noise ** 2 of ClassESW.py line 127;
    at noise value 0 numpy produces +inf (1.0 / +0.0) instead of raising. -/
def fvInvSq (v : ℚ) : FV :=
  if v = 0 then FV.inf else FV.fin (1 / v ^ 2)

/-- One spectral window's channel grid, ClassESW.py lines 58-59:
    dfreq = bw[spwid] / nc and
    __freqs = freq0[spwid] + numpy.arange(nc) * dfreq.
    This is also the per-window formula stated by the specification. -/
def specWindowFreqs (f0 b : ℚ) (nc : ℕ) : List ℚ :=
  (List.range nc).map (fun (j : ℕ) => f0 + (j : ℚ) * (b / (nc : ℚ)))

/-- MSNoise.__init__ lines 55-63: the frequency axis accumulated by the
    spectral-window loop.  msutils.summary supplies parallel per-window
    arrays REF_FREQUENCY, TOTAL_BANDWIDTH and NUM_CHAN; the loop enumerates
    NUM_CHAN and indexes the other two (getD models the indexing; Python
    raises IndexError on a length mismatch and ZeroDivisionError on a zero
    NUM_CHAN entry, situations the specification declares fatal malformed
    metadata, so the theorems below hypothesise well-formed input). -/
def buildFreqs (freq0 bw : List ℚ) (nchan : List ℕ) : List ℚ :=
  (List.range nchan.length).foldl
    (fun acc spwid =>
      acc ++ specWindowFreqs (freq0.getD spwid 0) (bw.getD spwid 0) (nchan.getD spwid 0))
    []

/-- The Python heap of two-column numpy arrays touched by estimate_weights
    (column 0 = frequency in Hz, column 1 = sensitivity).  Column 1 can
    become non-finite through the in-place normalisation, so it carries FV
    values; column 0 is never written. -/
structure Store where
  bufs : List (List (ℚ × FV))
deriving DecidableEq

/-- The smooth argument of estimate_weights (a string in Python; only the
    two recognised values reach the fit, line 118 and line 122). -/
inductive SmoothKind where
  | polyn : SmoothKind
  | spline : SmoothKind
deriving DecidableEq

/-- numpy.poly1d(coeffs)(t): Horner evaluation of a coefficient array given
    highest degree first, as numpy.polyfit returns it. -/
def poly1dEval (coeffs : List ℚ) (t : ℚ) : ℚ :=
  coeffs.foldl (fun acc c => acc * t + c) 0

/-- Lines 112-113: if normalise, y /= y.max(), executed in place on the
    sensitivity column; numpy evaluates y.max() first and then divides
    every element by it (non-finite results when the maximum is zero).
    Returns none exactly when y.max() raises ValueError (empty input). -/
def normaliseBuf (normalise : Bool) (buf : List (ℚ × FV)) : Option (List (ℚ × FV)) :=
  if normalise then
    (fvListMax (buf.map Prod.snd)).map (fun m => buf.map (fun p => (p.1, fvDiv p.2 m)))
  else some buf

/-- Lines 116-125: x = x*1e-6 and freqs = self.freqs*1e-6 (both rebinding,
    not in place), then the polynomial fit (numpy.polyfit, line 119, the
    external least-squares routine, taken as the parameter polyfit) sampled
    at the MS frequencies with numpy.poly1d, or the spline fit
    (scipy splrep/splev, lines 123-125, taken as the combined evaluator
    parameter splineEval). -/
def fitNoise (polyfit : List ℚ → List FV → ℕ → List ℚ)
    (splineEval : List ℚ → List FV → ℕ → ℚ → ℚ)
    (freqs : List ℚ) (nbuf : List (ℚ × FV)) (smooth : SmoothKind) (fitOrder : ℕ) :
    List ℚ :=
  let xm : List ℚ := nbuf.map (fun p => p.1 * (1 / 1000000))
  let yv : List FV := nbuf.map Prod.snd
  let fm : List ℚ := freqs.map (fun v => v * (1 / 1000000))
  match smooth with
  | SmoothKind.polyn => fm.map (poly1dEval (polyfit xm yv fitOrder))
  | SmoothKind.spline => fm.map (splineEval xm yv fitOrder)

/-- MSNoise.estimate_weights, ClassESW.py lines 73-151, for the array form
    of stats_data (the str form delegates to numpy.load, file input outside
    this model).  mode is forcibly 'specs' (line 98).  The input array is
    copied (numpy.array, line 104) into a fresh buffer, the copy is
    normalised in place, the curve is fitted and sampled on the channel
    grid, and weights = 1.0/noise**2 (line 127).  Plotting (lines 129-149)
    only renders a diagnostic figure and is omitted.  freqs is self.freqs,
    statsRef designates the caller's stats_data buffer in the store.
    The function returns the final heap together with (noise, weights),
    line 151; none models an uncaught Python exception. -/
def estimateWeights (polyfit : List ℚ → List FV → ℕ → List ℚ)
    (splineEval : List ℚ → List FV → ℕ → ℚ → ℚ)
    (freqs : List ℚ) (st : Store) (statsRef : ℕ)
    (normalise : Bool) (smooth : SmoothKind) (fitOrder : ℕ) :
    Option (Store × List ℚ × List FV) :=
  match st.bufs[statsRef]? with
  | none => none
  | some buf =>
    match normaliseBuf normalise buf with
    | none => none
    | some nbuf =>
      let noise := fitNoise polyfit splineEval freqs nbuf smooth fitOrder
      some (⟨st.bufs ++ [nbuf]⟩, noise, noise.map fvInvSq)

/-- The stat argument of write_toms (lines 196-199; only the two recognised
    strings cause a scalar-column write). -/
inductive Stat where
  | sum : Stat
  | stddev : Stat
deriving DecidableEq

/-- Observable interactions of write_toms with the opened casacore table:
    getFlags row0 nr      = tab.getcol('FLAG', row0, nr), line 189;
    putSpec row0 nr cube  = tab.putcol(spectral column, __data, row0, nr),
                            line 193;
    putScalar row0 nr dat = tab.putcol(scalar column, ..., row0, nr),
                            lines 197 and 199;
    close                 = tab.close(), line 202. -/
inductive Ev where
  | getFlags : ℕ → ℕ → Ev
  | putSpec : ℕ → ℕ → List (List (List ℚ)) → Ev
  | putScalar : ℕ → ℕ → List (List ℚ) → Ev
  | close : Ev
deriving DecidableEq

/-- Python range(start, stop, step), fuel-indexed so that it computes by
    structural recursion; rangeStep below instantiates the fuel. -/
def rangeStepAux : ℕ → ℕ → ℕ → ℕ → List ℕ
  | 0, _, _, _ => []
  | fuel + 1, start, stop, step =>
      if start < stop then start :: rangeStepAux fuel (start + step) stop step
      else []

/-- Python range(start, stop, step) for step > 0; for step = 0 Python
    raises ValueError (the caller of rangeStep handles that case before
    calling, so the value at step = 0 is irrelevant and taken empty). -/
def rangeStep (start stop step : ℕ) : List ℕ :=
  rangeStepAux (stop - start) start stop step

/-- Line 182: rowchunk = rowchunk or self.nrows/10.  Python or replaces
    both None and 0 by the default; /10 is Python 2 floor division. -/
def rcEff (nrows : ℕ) (rowchunk : Option ℕ) : ℕ :=
  match rowchunk with
  | none => nrows / 10
  | some k => if k = 0 then nrows / 10 else k

/-- Line 187: __data = numpy.ones(dshape) * data[numpy.newaxis, :,
    numpy.newaxis], the weight vector broadcast identically over the nr
    rows and ncor correlations of a chunk (numpy requires data to hold one
    entry per channel for this broadcast, so the channel extent of the cube
    is data's length). -/
def chunkCube (data : List ℚ) (nr ncor : ℕ) : List (List (List ℚ)) :=
  List.replicate nr (data.map (fun w => List.replicate ncor w))

/-- Line 189: the FLAG rows of one chunk; flagRow gives the (channel,
    correlation) flag matrix of each absolute row of the MS. -/
def chunkFlags (flagRow : ℕ → List (List Bool)) (row0 nr : ℕ) : List (List (List Bool)) :=
  (List.range nr).map (fun r => flagRow (row0 + r))

/-- One row of mdata.sum(axis=1).data (line 199): numpy's masked sum is the
    plain sum of mdata.filled(0) over the channel axis, so masked (flagged)
    entries contribute 0 and the underlying data of a fully masked
    reduction is 0. -/
def maskedSumRow (ncor : ℕ) (cubeRow : List (List ℚ)) (maskRow : List (List Bool)) : List ℚ :=
  (List.range ncor).map (fun k =>
    ((cubeRow.zip maskRow).map (fun p => if p.2.getD k false then 0 else p.1.getD k 0)).sum)

/-- The matrix written to the scalar column for one chunk (lines 190-199):
    the masked cube reduced along the channel axis, with the sum statistic
    expanded (line 199) and the masked standard deviation (line 197, an
    irrational quantity) taken as the parameter stdRed. -/
def chunkScal (flagRow : ℕ → List (List Bool))
    (stdRed : List (List ℚ) → List (List Bool) → List ℚ)
    (data : List ℚ) (stat : Stat) (ncor row0 nr : ℕ) : List (List ℚ) :=
  let cube := chunkCube data nr ncor
  let flags := chunkFlags flagRow row0 nr
  match stat with
  | Stat.sum => (cube.zip flags).map (fun p => maskedSumRow ncor p.1 p.2)
  | Stat.stddev => (cube.zip flags).map (fun p => stdRed p.1 p.2)

/-- The chunk loop of write_toms (lines 183-202) over the row offsets of
    range(0, nrows, rowchunk).  ok tells whether a given table call
    succeeds; a failing call raises StoreAccessError, so the loop stops at
    once and tab.close() (line 202, not protected by any try/finally) is
    never reached.  Returns the event trace and whether the loop ran to
    completion. -/
def writeTomsLoop (flagRow : ℕ → List (List Bool)) (ok : Ev → Bool)
    (stdRed : List (List ℚ) → List (List Bool) → List ℚ)
    (nrows ncor : ℕ) (data : List ℚ) (stat : Stat) (rc : ℕ) :
    List ℕ → List Ev × Bool
  | [] => ([Ev.close], true)
  | row0 :: rest =>
    let nr := min rc (nrows - row0)
    let cube := chunkCube data nr ncor
    let scal := chunkScal flagRow stdRed data stat ncor row0 nr
    if ok (Ev.getFlags row0 nr) then
      if ok (Ev.putSpec row0 nr cube) then
        if ok (Ev.putScalar row0 nr scal) then
          let rest2 := writeTomsLoop flagRow ok stdRed nrows ncor data stat rc rest
          (Ev.getFlags row0 nr :: Ev.putSpec row0 nr cube ::
            Ev.putScalar row0 nr scal :: rest2.1, rest2.2)
        else ([Ev.getFlags row0 nr, Ev.putSpec row0 nr cube], false)
      else ([Ev.getFlags row0 nr], false)
    else ([], false)

/-- MSNoise.write_toms, ClassESW.py lines 154-202.  The two msutils.addcol
    calls (lines 173-178) go to the external column-creation helper
    (idempotent, no table events of its own here).  nr = min(rowchunk,
    nrows-row0) is the truncated chunk length (line 184).  A zero effective
    rowchunk (nrows < 10 with the default) makes range(0, nrows, 0) raise
    ValueError before any chunk: empty trace, failed run. -/
def writeToms (flagRow : ℕ → List (List Bool)) (ok : Ev → Bool)
    (stdRed : List (List ℚ) → List (List Bool) → List ℚ)
    (nrows ncor : ℕ) (data : List ℚ) (stat : Stat) (rowchunk : Option ℕ) :
    List Ev × Bool :=
  let rc := rcEff nrows rowchunk
  if rc = 0 then ([], false)
  else writeTomsLoop flagRow ok stdRed nrows ncor data stat rc (rangeStep 0 nrows rc)

/-- The MS rows covered by spectral-column writes of a trace, in trace
    order. -/
def specRows (tr : List Ev) : List ℕ :=
  tr.flatMap (fun e =>
    match e with
    | Ev.putSpec row0 nr _ => List.range' row0 nr
    | _ => [])

/-- Accumulating a list of appended blocks with foldl is the same as
    concatenating the blocks: the loop of MSNoise.__init__ builds exactly
    the concatenation of the per-window grids. -/
theorem foldl_append_eq_flatMap {α β : Type} (l : List α) (f : α → List β) :
    ∀ init : List β,
      l.foldl (fun acc a => acc ++ f a) init = init ++ l.flatMap f := by
  induction l with
  | nil => intro init; simp
  | cons a t ih => intro init; simp [List.foldl_cons, ih, List.flatMap_cons]

/-- Reading every position of a list back in order reproduces the list. -/
theorem map_getD_range {α : Type} (l : List α) (d : α) :
    (List.range l.length).map (fun i => l.getD i d) = l := by
  induction l with
  | nil => simp
  | cons a t ih =>
      have h1 : (a :: t).length = t.length + 1 := rfl
      rw [h1, List.range_succ_eq_map, List.map_cons, List.map_map]
      simp only [List.getD_cons_zero]
      have h3 : ((fun i => (a :: t).getD i d) ∘ Nat.succ) = (fun i => t.getD i d) := by
        funext i
        simp [List.getD_cons_succ]
      rw [h3, ih]

/-- A spectral window contributes exactly its declared number of
    channels. -/
theorem specWindowFreqs_length (f0 b : ℚ) (nc : ℕ) :
    (specWindowFreqs f0 b nc).length = nc := by
  simp [specWindowFreqs]

/-- A window with positive bandwidth has a strictly increasing channel
    grid. -/
theorem specWindowFreqs_pairwise (f0 b : ℚ) (nc : ℕ) (hb : 0 < b) :
    List.Pairwise (fun a c => a < c) (specWindowFreqs f0 b nc) := by
  cases nc with
  | zero => simp [specWindowFreqs]
  | succ n =>
      have hd : (0 : ℚ) < b / ((n + 1 : ℕ) : ℚ) := by
        apply div_pos hb
        exact_mod_cast Nat.succ_pos n
      rw [specWindowFreqs, List.pairwise_map]
      refine (List.pairwise_lt_range (n + 1)).imp ?_
      intro i j hij
      have hcast : (i : ℚ) < (j : ℚ) := by exact_mod_cast hij
      have := mul_lt_mul_of_pos_right hcast hd
      exact add_lt_add_left this f0

/-- The fitted noise curve has one value per entry of the frequency axis
    for both smoothing methods. -/
theorem fitNoise_length (pf : List ℚ → List FV → ℕ → List ℚ)
    (se : List ℚ → List FV → ℕ → ℚ → ℚ) (freqs : List ℚ)
    (nbuf : List (ℚ × FV)) (smooth : SmoothKind) (fitOrder : ℕ) :
    (fitNoise pf se freqs nbuf smooth fitOrder).length = freqs.length := by
  cases smooth <;> simp [fitNoise]

/-- Inversion of a successful estimate_weights run: the input buffer was
    found, normalisation succeeded, the final heap is the original one plus
    the (possibly normalised) copy, and the outputs are the fitted noise
    and its elementwise inverse square. -/
theorem estimateWeights_some_inv
    {pf : List ℚ → List FV → ℕ → List ℚ} {se : List ℚ → List FV → ℕ → ℚ → ℚ}
    {freqs : List ℚ} {st : Store} {ref : ℕ} {normalise : Bool}
    {smooth : SmoothKind} {fitOrder : ℕ} {st2 : Store} {noise : List ℚ}
    {weights : List FV}
    (h : estimateWeights pf se freqs st ref normalise smooth fitOrder
          = some (st2, noise, weights)) :
    ∃ buf nbuf, st.bufs[ref]? = some buf
      ∧ normaliseBuf normalise buf = some nbuf
      ∧ st2 = ⟨st.bufs ++ [nbuf]⟩
      ∧ noise = fitNoise pf se freqs nbuf smooth fitOrder
      ∧ weights = noise.map fvInvSq := by
  unfold estimateWeights at h
  split at h
  · exact absurd h (by simp)
  · rename_i buf hb
    split at h
    · exact absurd h (by simp)
    · rename_i nbuf hn
      simp only [Option.some.injEq, Prod.mk.injEq] at h
      exact ⟨buf, nbuf, hb, hn, h.1.symm, h.2.1.symm, by rw [← h.2.1, h.2.2]⟩

/-- Folding fvMax over a constant finite list returns the constant. -/
theorem foldl_fvMax_const (c : ℚ) :
    ∀ t : List FV, (∀ v ∈ t, v = FV.fin c) → t.foldl fvMax (FV.fin c) = FV.fin c := by
  intro t
  induction t with
  | nil => intro _; rfl
  | cons a t ih =>
      intro hall
      have ha : a = FV.fin c := hall a (by simp)
      have ht : ∀ v ∈ t, v = FV.fin c := fun v hv => hall v (by simp [hv])
      rw [List.foldl_cons, ha]
      have : fvMax (FV.fin c) (FV.fin c) = FV.fin c := by simp [fvMax]
      rw [this, ih ht]

/-- ndarray.max() of a nonempty constant finite array is the constant. -/
theorem fvListMax_const (c : ℚ) (l : List FV) (hne : l ≠ [])
    (hall : ∀ v ∈ l, v = FV.fin c) : fvListMax l = some (FV.fin c) := by
  cases l with
  | nil => exact absurd rfl hne
  | cons a t =>
      have ha : a = FV.fin c := hall a (by simp)
      have ht : ∀ v ∈ t, v = FV.fin c := fun v hv => hall v (by simp [hv])
      rw [fvListMax, ha, foldl_fvMax_const c t ht]

/-- ndarray.max() of a nonempty array succeeds. -/
theorem fvListMax_isSome (l : List FV) (hne : l ≠ []) :
    ∃ m, fvListMax l = some m := by
  cases l with
  | nil => exact absurd rfl hne
  | cons a t => exact ⟨t.foldl fvMax a, rfl⟩

/-- Dividing any value by finite zero never yields a finite value (numpy
    gives NaN or a signed infinity). -/
theorem fvDiv_fin_zero_not_fin (v : FV) (q : ℚ) : fvDiv v (FV.fin 0) ≠ FV.fin q := by
  cases v with
  | fin a =>
      by_cases ha : a = 0
      · simp [fvDiv, ha]
      · by_cases hneg : a < 0 <;> simp [fvDiv, ha, hneg]
  | inf => simp [fvDiv]
  | ninf => simp [fvDiv]
  | nan => simp [fvDiv]

/-- range produces nothing once the start has passed the stop. -/
theorem rangeStepAux_empty (fuel start stop step : ℕ) (h : stop ≤ start) :
    rangeStepAux fuel start stop step = [] := by
  cases fuel with
  | zero => rfl
  | succ f => simp [rangeStepAux, Nat.not_lt.mpr h]

/-- Every element of range(start, stop, step) is at least start. -/
theorem rangeStepAux_ge (stop step : ℕ) :
    ∀ fuel start x, x ∈ rangeStepAux fuel start stop step → start ≤ x := by
  intro fuel
  induction fuel with
  | zero => intro start x hx; simp [rangeStepAux] at hx
  | succ f ih =>
      intro start x hx
      by_cases h : start < stop
      · simp only [rangeStepAux, if_pos h, List.mem_cons] at hx
        rcases hx with rfl | hx
        · exact le_refl x
        · exact le_trans (Nat.le_add_right start step) (ih (start + step) x hx)
      · simp [rangeStepAux, h] at hx

/-- range(start, stop, step) is strictly increasing for a positive step. -/
theorem rangeStepAux_pairwise (stop step : ℕ) (hs : 0 < step) :
    ∀ fuel start, List.Pairwise (fun a b => a < b) (rangeStepAux fuel start stop step) := by
  intro fuel
  induction fuel with
  | zero => intro start; simp [rangeStepAux]
  | succ f ih =>
      intro start
      by_cases h : start < stop
      · simp only [rangeStepAux, if_pos h]
        refine List.Pairwise.cons ?_ (ih (start + step))
        intro x hx
        have := rangeStepAux_ge stop step f (start + step) x hx
        omega
      · simp [rangeStepAux, h]

/-- Chunking [start, stop) by a positive step, truncating the last chunk to
    the remaining rows, covers exactly the interval [start, stop), each row
    once and in order. -/
theorem rangeStepAux_cover (stop step : ℕ) (hs : 0 < step) :
    ∀ fuel start, stop - start ≤ fuel →
      (rangeStepAux fuel start stop step).flatMap
          (fun r0 => List.range' r0 (min step (stop - r0)))
        = List.range' start (stop - start) := by
  intro fuel
  induction fuel with
  | zero =>
      intro start hf
      simp only [rangeStepAux, List.flatMap_nil]
      have h0 : stop - start = 0 := by omega
      rw [h0]
      rfl
  | succ f ih =>
      intro start hf
      by_cases h : start < stop
      · simp only [rangeStepAux, if_pos h, List.flatMap_cons]
        by_cases hc : step ≤ stop - start
        · have hrec := ih (start + step) (by omega)
          rw [hrec]
          have hmin : min step (stop - start) = step := by omega
          rw [hmin]
          have h2 : stop - (start + step) = stop - start - step := by omega
          rw [h2]
          have happ := List.range'_append start step (stop - start - step) 1
          simp only [one_mul] at happ
          rw [show stop - start - step + step = stop - start from by omega] at happ
          exact happ
        · have hmin : min step (stop - start) = stop - start := by omega
          rw [hmin]
          have hstop : stop ≤ start + step := by omega
          rw [rangeStepAux_empty f (start + step) stop step hstop]
          simp
      · have h0 : stop - start = 0 := by omega
        simp [rangeStepAux, h, h0]

/-- The chunk offsets of write_toms are strictly increasing. -/
theorem rangeStep_pairwise (start stop step : ℕ) (hs : 0 < step) :
    List.Pairwise (fun a b => a < b) (rangeStep start stop step) :=
  rangeStepAux_pairwise stop step hs (stop - start) start

/-- Truncated chunks starting at the offsets of range(start, stop, step)
    tile [start, stop) exactly. -/
theorem rangeStep_cover (stop step : ℕ) (hs : 0 < step) :
    (rangeStep 0 stop step).flatMap
        (fun r0 => List.range' r0 (min step (stop - r0)))
      = List.range' 0 stop := by
  have h := rangeStepAux_cover stop step hs (stop - 0) 0 (le_refl _)
  simpa [rangeStep] using h

/-- When every table call succeeds, the loop of write_toms emits, for each
    chunk offset in order, the flag read, the spectral write and the scalar
    write of that chunk, then the close, and reports success. -/
theorem writeTomsLoop_ok (flagRow : ℕ → List (List Bool)) (ok : Ev → Bool)
    (stdRed : List (List ℚ) → List (List Bool) → List ℚ)
    (nrows ncor : ℕ) (data : List ℚ) (stat : Stat) (rc : ℕ)
    (hok : ∀ e, ok e = true) :
    ∀ l : List ℕ,
      writeTomsLoop flagRow ok stdRed nrows ncor data stat rc l
        = (l.flatMap (fun r0 =>
              [Ev.getFlags r0 (min rc (nrows - r0)),
               Ev.putSpec r0 (min rc (nrows - r0))
                 (chunkCube data (min rc (nrows - r0)) ncor),
               Ev.putScalar r0 (min rc (nrows - r0))
                 (chunkScal flagRow stdRed data stat ncor r0 (min rc (nrows - r0)))])
            ++ [Ev.close], true) := by
  intro l
  induction l with
  | nil => simp [writeTomsLoop]
  | cons r0 rest ih =>
      simp only [writeTomsLoop, hok, if_true, List.flatMap_cons, ih]
      simp

/-- The loop reaches tab.close() exactly on the runs it completes: close
    appears in the trace iff the loop succeeded. -/
theorem writeTomsLoop_close_iff (flagRow : ℕ → List (List Bool)) (ok : Ev → Bool)
    (stdRed : List (List ℚ) → List (List Bool) → List ℚ)
    (nrows ncor : ℕ) (data : List ℚ) (stat : Stat) (rc : ℕ) :
    ∀ l : List ℕ,
      (Ev.close ∈ (writeTomsLoop flagRow ok stdRed nrows ncor data stat rc l).1)
        ↔ (writeTomsLoop flagRow ok stdRed nrows ncor data stat rc l).2 = true := by
  intro l
  induction l with
  | nil => simp [writeTomsLoop]
  | cons r0 rest ih =>
      cases h1 : ok (Ev.getFlags r0 (min rc (nrows - r0))) with
      | false => simp [writeTomsLoop, h1]
      | true =>
          cases h2 : ok (Ev.putSpec r0 (min rc (nrows - r0))
              (chunkCube data (min rc (nrows - r0)) ncor)) with
          | false => simp [writeTomsLoop, h1, h2]
          | true =>
              cases h3 : ok (Ev.putScalar r0 (min rc (nrows - r0))
                  (chunkScal flagRow stdRed data stat ncor r0 (min rc (nrows - r0)))) with
              | false => simp [writeTomsLoop, h1, h2, h3]
              | true => simp [writeTomsLoop, h1, h2, h3, ih]

/-- Every scalar-column write in a trace of the loop carries exactly the
    masked reduction of its own chunk. -/
theorem writeTomsLoop_putScalar (flagRow : ℕ → List (List Bool)) (ok : Ev → Bool)
    (stdRed : List (List ℚ) → List (List Bool) → List ℚ)
    (nrows ncor : ℕ) (data : List ℚ) (stat : Stat) (rc : ℕ) :
    ∀ (l : List ℕ) (r0 nr : ℕ) (d : List (List ℚ)),
      Ev.putScalar r0 nr d ∈ (writeTomsLoop flagRow ok stdRed nrows ncor data stat rc l).1 →
        d = chunkScal flagRow stdRed data stat ncor r0 nr := by
  intro l
  induction l with
  | nil => intro r0 nr d hd; simp [writeTomsLoop] at hd
  | cons a rest ih =>
      intro r0 nr d hd
      cases h1 : ok (Ev.getFlags a (min rc (nrows - a))) with
      | false => simp [writeTomsLoop, h1] at hd
      | true =>
          cases h2 : ok (Ev.putSpec a (min rc (nrows - a))
              (chunkCube data (min rc (nrows - a)) ncor)) with
          | false => simp [writeTomsLoop, h1, h2] at hd
          | true =>
              cases h3 : ok (Ev.putScalar a (min rc (nrows - a))
                  (chunkScal flagRow stdRed data stat ncor a (min rc (nrows - a)))) with
              | false => simp [writeTomsLoop, h1, h2, h3] at hd
              | true =>
                  simp only [writeTomsLoop, h1, h2, h3, if_true, List.mem_cons] at hd
                  rcases hd with hd | hd | hd | hd
                  · exact absurd hd (by simp)
                  · exact absurd hd (by simp)
                  · rcases Ev.putScalar.inj hd with ⟨rfl, rfl, rfl⟩
                    rfl
                  · exact ih r0 nr d hd

/-- A fully flagged chunk reduces to all-zero scalar data under the sum
    statistic: numpy's masked sum fills every masked entry with 0. -/
theorem chunkScal_sum_allFlagged (flagRow : ℕ → List (List Bool))
    (stdRed : List (List ℚ) → List (List Bool) → List ℚ)
    (data : List ℚ) (ncor r0 nr : ℕ)
    (hflag : ∀ r, r < nr → ∀ ch ∈ flagRow (r0 + r), ncor ≤ ch.length ∧ ∀ b ∈ ch, b = true) :
    ∀ row ∈ chunkScal flagRow stdRed data Stat.sum ncor r0 nr, ∀ v ∈ row, v = (0 : ℚ) := by
  intro row hrow v hv
  simp only [chunkScal] at hrow
  rcases List.mem_map.mp hrow with ⟨p, hp, hrow2⟩
  subst hrow2
  simp only [maskedSumRow] at hv
  rcases List.mem_map.mp hv with ⟨k, hkmem, hv2⟩
  subst hv2
  have hk : k < ncor := List.mem_range.mp hkmem
  apply List.sum_eq_zero
  intro x hx
  rcases List.mem_map.mp hx with ⟨q, hq, hx2⟩
  subst hx2
  have hq2 : q.2 ∈ p.2 := (List.of_mem_zip hq).2
  have hp2 : p.2 ∈ chunkFlags flagRow r0 nr := (List.of_mem_zip hp).2
  simp only [chunkFlags, List.mem_map] at hp2
  rcases hp2 with ⟨r, hrmem, hp3⟩
  have hr : r < nr := List.mem_range.mp hrmem
  rcases hflag r hr q.2 (by rw [← hp3] at hq2; exact hq2) with ⟨hlen, htrue⟩
  have hgk : q.2.getD k false = true := by
    rw [List.getD_eq_getElem q.2 false (lt_of_lt_of_le hk hlen)]
    exact htrue _ (List.getElem_mem (lt_of_lt_of_le hk hlen))
  rw [hgk]
  simp

/-- A fully flagged chunk's scalar data under the sum statistic is exactly
    the nr x ncor zero matrix. -/
theorem chunkScal_sum_allFlagged_replicate (flagRow : ℕ → List (List Bool))
    (stdRed : List (List ℚ) → List (List Bool) → List ℚ)
    (data : List ℚ) (ncor r0 nr : ℕ)
    (hflag : ∀ r, r < nr → ∀ ch ∈ flagRow (r0 + r), ncor ≤ ch.length ∧ ∀ b ∈ ch, b = true) :
    chunkScal flagRow stdRed data Stat.sum ncor r0 nr
      = List.replicate nr (List.replicate ncor (0 : ℚ)) := by
  apply List.eq_replicate_iff.mpr
  constructor
  · simp [chunkScal, chunkCube, chunkFlags, List.length_zip]
  · intro row hrow
    apply List.eq_replicate_iff.mpr
    constructor
    · simp only [chunkScal] at hrow
      rcases List.mem_map.mp hrow with ⟨p, _, hrow2⟩
      subst hrow2
      simp [maskedSumRow]
    · intro v hv
      exact chunkScal_sum_allFlagged flagRow stdRed data ncor r0 nr hflag row hrow v hv

/-- C1: for every input sensitivity curve and smoothing configuration for
    which estimate_weights returns a result, both returned sequences have
    one entry per channel of the frequency axis, and at every channel with
    nonzero fitted noise the weight is exactly 1/noise^2, so that
    weight * noise^2 = 1 there. -/
theorem C1_weights_inverse_square
    (pf : List ℚ → List FV → ℕ → List ℚ) (se : List ℚ → List FV → ℕ → ℚ → ℚ)
    (freqs : List ℚ) (st : Store) (ref : ℕ) (normalise : Bool)
    (smooth : SmoothKind) (fitOrder : ℕ) (st2 : Store) (noise : List ℚ)
    (weights : List FV)
    (h : estimateWeights pf se freqs st ref normalise smooth fitOrder
          = some (st2, noise, weights)) :
    noise.length = freqs.length ∧ weights.length = freqs.length ∧
      ∀ c, c < noise.length → noise.getD c 0 ≠ 0 →
        weights.getD c FV.nan = FV.fin (1 / noise.getD c 0 ^ 2)
          ∧ 1 / noise.getD c 0 ^ 2 * noise.getD c 0 ^ 2 = 1 := by
  rcases estimateWeights_some_inv h with ⟨buf, nbuf, _, _, _, hnoise, hw⟩
  subst hw
  subst hnoise
  refine ⟨fitNoise_length pf se freqs nbuf smooth fitOrder, ?_, ?_⟩
  · rw [List.length_map]
    exact fitNoise_length pf se freqs nbuf smooth fitOrder
  · intro c hc hnz
    have hcm : c < (List.map fvInvSq (fitNoise pf se freqs nbuf smooth fitOrder)).length := by
      rw [List.length_map]; exact hc
    have hmap : (List.map fvInvSq (fitNoise pf se freqs nbuf smooth fitOrder)).getD c FV.nan
        = fvInvSq ((fitNoise pf se freqs nbuf smooth fitOrder).getD c 0) := by
      rw [List.getD_eq_getElem _ FV.nan hcm,
          List.getD_eq_getElem _ 0 hc, List.getElem_map]
    rw [hmap]
    constructor
    · rw [fvInvSq, if_neg hnz]
    · rw [one_div]
      exact inv_mul_cancel₀ (pow_ne_zero 2 hnz)

/-- C1 witness: a concrete run (constant polynomial fit 2 over a one-point
    curve, two-channel axis) where the weight at channel 0 is 1/2^2 and
    weight * noise^2 = 1. -/
theorem C1_weights_inverse_square_witness :
    List.getD [FV.fin (1 / 4), FV.fin (1 / 4)] 0 FV.nan
        = FV.fin (1 / List.getD [(2 : ℚ), 2] 0 0 ^ 2)
      ∧ 1 / List.getD [(2 : ℚ), 2] 0 0 ^ 2 * List.getD [(2 : ℚ), 2] 0 0 ^ 2 = 1 := by
  exact (C1_weights_inverse_square (fun _ _ _ => [2]) (fun _ _ _ _ => 0)
      [1000000, 2000000] ⟨[[(1000000, FV.fin 3)]]⟩ 0 true SmoothKind.polyn 9
      ⟨[[(1000000, FV.fin 3)], [(1000000, FV.fin 1)]]⟩ [2, 2]
      [FV.fin (1 / 4), FV.fin (1 / 4)]
      (by norm_num [estimateWeights, normaliseBuf, fvListMax, fvMax, fvDiv,
        fitNoise, poly1dEval, fvInvSq])).2.2 0 (by norm_num) (by norm_num)

/-- C2: for every well-formed sequence of spectral windows, the frequency
    axis built by MSNoise.__init__ is the concatenation, in declaration
    order, of each window's per-channel grid ref_freq + j*(bandwidth/nchan)
    for j = 0..nchan-1; its length is the sum of the declared channel
    counts, and for a window with positive bandwidth the grid is strictly
    increasing. -/
theorem C2_frequency_axis (freq0 bw : List ℚ) (nchan : List ℕ)
    (h1 : freq0.length = nchan.length) (h2 : bw.length = nchan.length)
    (h3 : ∀ n ∈ nchan, 0 < n) :
    buildFreqs freq0 bw nchan
        = (List.range nchan.length).flatMap
            (fun i => specWindowFreqs (freq0.getD i 0) (bw.getD i 0) (nchan.getD i 0))
      ∧ (buildFreqs freq0 bw nchan).length = nchan.sum
      ∧ ∀ i, i < nchan.length → 0 < bw.getD i 0 →
          List.Pairwise (fun a b => a < b)
            (specWindowFreqs (freq0.getD i 0) (bw.getD i 0) (nchan.getD i 0)) := by
  have hcat : buildFreqs freq0 bw nchan
      = (List.range nchan.length).flatMap
          (fun i => specWindowFreqs (freq0.getD i 0) (bw.getD i 0) (nchan.getD i 0)) := by
    unfold buildFreqs
    rw [foldl_append_eq_flatMap]
    rw [List.nil_append]
  refine ⟨hcat, ?_, ?_⟩
  · rw [hcat, List.length_flatMap]
    have hmc : (List.range nchan.length).map
        (List.length ∘ fun i =>
          specWindowFreqs (freq0.getD i 0) (bw.getD i 0) (nchan.getD i 0))
        = (List.range nchan.length).map (fun i => nchan.getD i 0) := by
      apply List.map_congr_left
      intro i _
      simp [specWindowFreqs_length]
    rw [hmc, map_getD_range]
  · intro i _ hb
    exact specWindowFreqs_pairwise _ _ _ hb

/-- C2 witness: the single-window metadata of the end-to-end scenario of
    the specification (ref 950 MHz, bandwidth 100 MHz, 4 channels) gives a
    4-channel strictly increasing axis. -/
theorem C2_frequency_axis_witness :
    (buildFreqs [950000000] [100000000] [4]).length = 4
      ∧ List.Pairwise (fun a b => a < b)
          (specWindowFreqs (List.getD [(950000000 : ℚ)] 0 0)
            (List.getD [(100000000 : ℚ)] 0 0) (List.getD [4] 0 0)) := by
  have h := C2_frequency_axis [950000000] [100000000] [4] rfl rfl (by decide)
  refine ⟨?_, h.2.2 0 (by decide) (by norm_num)⟩
  have hl := h.2.1
  simpa using hl

/-- C3 counterexample: with the fitted polynomial t - 1 (an admissible
    output of the external least-squares routine) and the one-channel axis
    at 1 MHz, the fitted noise is exactly 0 at channel 0, yet
    estimate_weights returns normally with weight +inf at that channel
    instead of failing with any DivisionByZeroError (no such error exists
    in the code; numpy division by zero only warns). -/
theorem C3_counterexample :
    estimateWeights (fun _ _ _ => [1, -1]) (fun _ _ _ _ => 0) [1000000]
        ⟨[[(1000000, FV.fin 1)]]⟩ 0 false SmoothKind.polyn 9
      = some (⟨[[(1000000, FV.fin 1)], [(1000000, FV.fin 1)]]⟩, [0], [FV.inf]) := by
  norm_num [estimateWeights, normaliseBuf, fitNoise, poly1dEval, fvInvSq]

/-- C3 amended: if a fitted noise value is exactly zero at some channel,
    estimate_weights does not fail: it returns normally and the weight at
    that channel is +inf (numpy 1.0/0.0**2). -/
theorem C3_zero_noise_weight_is_inf
    (pf : List ℚ → List FV → ℕ → List ℚ) (se : List ℚ → List FV → ℕ → ℚ → ℚ)
    (freqs : List ℚ) (st : Store) (ref : ℕ) (normalise : Bool)
    (smooth : SmoothKind) (fitOrder : ℕ) (st2 : Store) (noise : List ℚ)
    (weights : List FV) (c : ℕ)
    (h : estimateWeights pf se freqs st ref normalise smooth fitOrder
          = some (st2, noise, weights))
    (hc : c < noise.length) (hz : noise.getD c 0 = 0) :
    weights.getD c FV.nan = FV.inf := by
  rcases estimateWeights_some_inv h with ⟨buf, nbuf, _, _, _, hnoise, hw⟩
  subst hw
  subst hnoise
  have hcm : c < (List.map fvInvSq (fitNoise pf se freqs nbuf smooth fitOrder)).length := by
    rw [List.length_map]; exact hc
  rw [List.getD_eq_getElem _ FV.nan hcm, List.getElem_map]
  rw [List.getD_eq_getElem _ 0 hc] at hz
  rw [fvInvSq, if_pos hz]

/-- C3 amended witness: the counterexample run, where channel 0 has zero
    noise and infinite weight. -/
theorem C3_zero_noise_weight_is_inf_witness :
    List.getD [FV.inf] 0 FV.nan = FV.inf := by
  exact C3_zero_noise_weight_is_inf (fun _ _ _ => [1, -1]) (fun _ _ _ _ => 0)
    [1000000] ⟨[[(1000000, FV.fin 1)]]⟩ 0 false SmoothKind.polyn 9
    ⟨[[(1000000, FV.fin 1)], [(1000000, FV.fin 1)]]⟩ [0] [FV.inf] 0
    (by norm_num [estimateWeights, normaliseBuf, fitNoise, poly1dEval, fvInvSq])
    (by norm_num) (by norm_num)

/-- C5 counterexample: a constant sensitivity curve (all values 5, maximum
    5, nonzero) with normalisation requested: estimate_weights returns
    normally and the copy's sensitivity column is normalised to all ones;
    no DegenerateInputError is raised on constant data (no such check
    exists in the code). -/
theorem C5_counterexample :
    estimateWeights (fun _ _ _ => [2]) (fun _ _ _ _ => 0) [1000000]
        ⟨[[(1000000, FV.fin 5), (2000000, FV.fin 5)]]⟩ 0 true SmoothKind.polyn 2
      = some (⟨[[(1000000, FV.fin 5), (2000000, FV.fin 5)],
                [(1000000, FV.fin 1), (2000000, FV.fin 1)]]⟩, [2], [FV.fin (1 / 4)]) := by
  norm_num [estimateWeights, normaliseBuf, fvListMax, fvMax, fvDiv, fitNoise,
    poly1dEval, fvInvSq]

/-- C5 amended: with normalisation requested on a curve whose y column has
    a maximum m, estimate_weights divides every sensitivity value of the
    copy by m and returns normally: there is no degeneracy check.  Constant
    nonzero data is normalised to all ones, and a zero maximum silently
    yields non-finite (NaN or -inf) values instead of an error. -/
theorem C5_normalise_divides_by_max
    (pf : List ℚ → List FV → ℕ → List ℚ) (se : List ℚ → List FV → ℕ → ℚ → ℚ)
    (freqs : List ℚ) (st : Store) (ref : ℕ) (smooth : SmoothKind)
    (fitOrder : ℕ) (buf : List (ℚ × FV)) (m : FV)
    (hb : st.bufs[ref]? = some buf)
    (hm : fvListMax (buf.map Prod.snd) = some m) :
    estimateWeights pf se freqs st ref true smooth fitOrder
        = some (⟨st.bufs ++ [buf.map (fun p => (p.1, fvDiv p.2 m))]⟩,
            fitNoise pf se freqs (buf.map (fun p => (p.1, fvDiv p.2 m))) smooth fitOrder,
            (fitNoise pf se freqs (buf.map (fun p => (p.1, fvDiv p.2 m)))
              smooth fitOrder).map fvInvSq)
      ∧ (∀ c : ℚ, c ≠ 0 → (∀ p ∈ buf, p.2 = FV.fin c) →
          (buf.map (fun p => (p.1, fvDiv p.2 m))).map Prod.snd
            = List.replicate buf.length (FV.fin 1))
      ∧ (m = FV.fin 0 →
          ∀ w ∈ (buf.map (fun p => (p.1, fvDiv p.2 m))).map Prod.snd,
            ∀ q : ℚ, w ≠ FV.fin q) := by
  have hnb : normaliseBuf true buf = some (buf.map (fun p => (p.1, fvDiv p.2 m))) := by
    simp [normaliseBuf, hm]
  refine ⟨by simp [estimateWeights, hb, hnb], ?_, ?_⟩
  · intro c hc hall
    have hne : buf ≠ [] := by
      intro h0
      rw [h0] at hm
      exact absurd hm (by simp [fvListMax])
    have hm2 : fvListMax (buf.map Prod.snd) = some (FV.fin c) := by
      apply fvListMax_const
      · intro h0
        exact hne (List.map_eq_nil_iff.mp h0)
      · intro v hv
        rcases List.mem_map.mp hv with ⟨p, hp, hv2⟩
        rw [← hv2]
        exact hall p hp
    have hmc : m = FV.fin c := Option.some.inj (hm.symm.trans hm2)
    subst hmc
    rw [List.map_map]
    apply List.eq_replicate_iff.mpr
    refine ⟨by simp, ?_⟩
    intro w hw
    rcases List.mem_map.mp hw with ⟨p, hp, hw2⟩
    rw [← hw2]
    have hp2 : p.2 = FV.fin c := hall p hp
    show fvDiv p.2 (FV.fin c) = FV.fin 1
    rw [hp2, fvDiv.eq_def]
    simp [hc, div_self hc]
  · intro hm0 w hw q
    subst hm0
    rcases List.mem_map.mp hw with ⟨p2, hp2, hw2⟩
    rcases List.mem_map.mp hp2 with ⟨p, _, hp3⟩
    rw [← hw2, ← hp3]
    exact fvDiv_fin_zero_not_fin p.2 q

/-- C5 amended witness: the constant-5 curve is normalised to all ones. -/
theorem C5_normalise_divides_by_max_witness :
    ([(1000000, FV.fin 5), ((2000000 : ℚ), FV.fin 5)].map
        (fun p => (p.1, fvDiv p.2 (FV.fin 5)))).map Prod.snd
      = List.replicate
          ([((1000000 : ℚ), FV.fin 5), (2000000, FV.fin 5)].length) (FV.fin 1) := by
  exact (C5_normalise_divides_by_max (fun _ _ _ => [2]) (fun _ _ _ _ => 0) [1000000]
      ⟨[[(1000000, FV.fin 5), (2000000, FV.fin 5)]]⟩ 0 SmoothKind.polyn 2
      [(1000000, FV.fin 5), (2000000, FV.fin 5)] (FV.fin 5) (by norm_num)
      (by norm_num [fvListMax, fvMax])).2.1 5 (by norm_num) (by norm_num)

/-- C6 counterexample: a two-point curve with fit order 0 (violating the
    claimed requirement degree >= 1): estimate_weights performs the fit and
    returns normally instead of failing with a FitDegreeError (no degree
    validation exists anywhere in the code). -/
theorem C6_counterexample :
    estimateWeights (fun _ _ _ => [3]) (fun _ _ _ _ => 0) [1000000]
        ⟨[[(1000000, FV.fin 2), (2000000, FV.fin 4)]]⟩ 0 false SmoothKind.polyn 0
      = some (⟨[[(1000000, FV.fin 2), (2000000, FV.fin 4)],
                [(1000000, FV.fin 2), (2000000, FV.fin 4)]]⟩, [3], [FV.fin (1 / 9)]) := by
  norm_num [estimateWeights, normaliseBuf, fitNoise, poly1dEval, fvInvSq]

/-- C6 amended: estimate_weights performs no validation of the fit
    degree/order: for every fitOrder (including 0 and orders at or above
    the number of data points) it proceeds to the fit and returns a result;
    any degree constraint lives only inside the external fitting
    routines. -/
theorem C6_no_fit_degree_check
    (pf : List ℚ → List FV → ℕ → List ℚ) (se : List ℚ → List FV → ℕ → ℚ → ℚ)
    (freqs : List ℚ) (st : Store) (ref : ℕ) (buf : List (ℚ × FV))
    (normalise : Bool) (smooth : SmoothKind) (fitOrder : ℕ)
    (hb : st.bufs[ref]? = some buf) (hne : buf ≠ []) :
    ∃ r, estimateWeights pf se freqs st ref normalise smooth fitOrder = some r := by
  have hnb : ∃ nbuf, normaliseBuf normalise buf = some nbuf := by
    cases normalise with
    | false => exact ⟨buf, rfl⟩
    | true =>
        have hne2 : buf.map Prod.snd ≠ [] := by
          intro h0
          exact hne (List.map_eq_nil_iff.mp h0)
        rcases fvListMax_isSome _ hne2 with ⟨m, hm⟩
        exact ⟨buf.map (fun p => (p.1, fvDiv p.2 m)), by simp [normaliseBuf, hm]⟩
  rcases hnb with ⟨nbuf, hnb⟩
  exact ⟨(⟨st.bufs ++ [nbuf]⟩, fitNoise pf se freqs nbuf smooth fitOrder,
      (fitNoise pf se freqs nbuf smooth fitOrder).map fvInvSq),
    by simp [estimateWeights, hb, hnb]⟩

/-- C6 amended witness: the two-point curve with fit order 0 succeeds. -/
theorem C6_no_fit_degree_check_witness :
    ∃ r, estimateWeights (fun _ _ _ => [3]) (fun _ _ _ _ => 0) [1000000]
        ⟨[[(1000000, FV.fin 2), (2000000, FV.fin 4)]]⟩ 0 false SmoothKind.polyn 0
      = some r := by
  exact C6_no_fit_degree_check (fun _ _ _ => [3]) (fun _ _ _ _ => 0) [1000000]
    ⟨[[(1000000, FV.fin 2), (2000000, FV.fin 4)]]⟩ 0
    [(1000000, FV.fin 2), (2000000, FV.fin 4)] false SmoothKind.polyn 0
    (by norm_num) (by simp)

/-- C10: estimate_weights never mutates the caller's stats_data array:
    numpy.array copies the input into a fresh buffer and the in-place
    normalisation division acts only on that copy, so every buffer that
    existed before the call (in particular the caller's) holds the same
    values afterwards. -/
theorem C10_caller_buffer_unchanged
    (pf : List ℚ → List FV → ℕ → List ℚ) (se : List ℚ → List FV → ℕ → ℚ → ℚ)
    (freqs : List ℚ) (st : Store) (ref : ℕ) (normalise : Bool)
    (smooth : SmoothKind) (fitOrder : ℕ) (st2 : Store) (noise : List ℚ)
    (weights : List FV)
    (h : estimateWeights pf se freqs st ref normalise smooth fitOrder
          = some (st2, noise, weights)) :
    ∀ i, i < st.bufs.length → st2.bufs[i]? = st.bufs[i]? := by
  rcases estimateWeights_some_inv h with ⟨buf, nbuf, _, _, hst, _, _⟩
  subst hst
  intro i hi
  exact List.getElem?_append_left hi

/-- C10 witness: in the constant-curve run with normalisation (which
    rewrites the copy's sensitivity column to ones), the caller's buffer at
    index 0 is unchanged. -/
theorem C10_caller_buffer_unchanged_witness :
    (Store.mk [[(1000000, FV.fin 5), (2000000, FV.fin 5)],
               [(1000000, FV.fin 1), (2000000, FV.fin 1)]]).bufs[0]?
      = (Store.mk [[(1000000, FV.fin 5), (2000000, FV.fin 5)]]).bufs[0]? := by
  exact C10_caller_buffer_unchanged (fun _ _ _ => [2]) (fun _ _ _ _ => 0) [1000000]
    ⟨[[(1000000, FV.fin 5), (2000000, FV.fin 5)]]⟩ 0 true SmoothKind.polyn 2
    ⟨[[(1000000, FV.fin 5), (2000000, FV.fin 5)],
      [(1000000, FV.fin 1), (2000000, FV.fin 1)]]⟩ [2] [FV.fin (1 / 4)]
    (by norm_num [estimateWeights, normaliseBuf, fvListMax, fvMax, fvDiv,
      fitNoise, poly1dEval, fvInvSq]) 0 (by norm_num)

/-- C7 counterexample: a run where the spectral-column write of the first
    chunk fails: write_toms stops with only the flag read in its trace and
    the table handle is never closed (tab.close() is outside any
    try/finally), contradicting the claim that the handle is released on
    failure paths as well. -/
theorem C7_counterexample :
    writeToms (fun _ => [[false]])
        (fun e => match e with
          | Ev.putSpec _ _ _ => false
          | _ => true)
        (fun _ _ => []) 2 1 [1] Stat.sum (some 2)
      = ([Ev.getFlags 0 2], false)
      ∧ Ev.close ∉ [Ev.getFlags 0 2] := by
  constructor
  · decide
  · decide

/-- C7 amended: write_toms closes the table handle exactly on the runs
    where the chunked iteration sets up and every chunk call succeeds: the
    close event is in the trace iff the run completed; on a failing chunk
    call (or a failing range setup) the error propagates and close never
    happens. -/
theorem C7_close_iff_success (flagRow : ℕ → List (List Bool)) (ok : Ev → Bool)
    (stdRed : List (List ℚ) → List (List Bool) → List ℚ)
    (nrows ncor : ℕ) (data : List ℚ) (stat : Stat) (rowchunk : Option ℕ) :
    (Ev.close ∈ (writeToms flagRow ok stdRed nrows ncor data stat rowchunk).1)
      ↔ (writeToms flagRow ok stdRed nrows ncor data stat rowchunk).2 = true := by
  simp only [writeToms]
  by_cases hrc : rcEff nrows rowchunk = 0
  · rw [if_pos hrc]
    simp
  · rw [if_neg hrc]
    exact writeTomsLoop_close_iff flagRow ok stdRed nrows ncor data stat
      (rcEff nrows rowchunk) (rangeStep 0 nrows (rcEff nrows rowchunk))

/-- C8: when every table call succeeds and the effective chunk size is
    nonzero, the trace of write_toms is a sequence of per-chunk blocks in
    strictly increasing row-offset order, and inside each block the
    spectral-column write precedes the scalar-column write for the same
    rows, followed by the final close. -/
theorem C8_chunk_ordering (flagRow : ℕ → List (List Bool)) (ok : Ev → Bool)
    (stdRed : List (List ℚ) → List (List Bool) → List ℚ)
    (nrows ncor : ℕ) (data : List ℚ) (stat : Stat) (rowchunk : Option ℕ)
    (hok : ∀ e, ok e = true) (hrc : rcEff nrows rowchunk ≠ 0) :
    ∃ chunks : List (ℕ × ℕ),
      (writeToms flagRow ok stdRed nrows ncor data stat rowchunk).1
          = chunks.flatMap (fun c =>
              [Ev.getFlags c.1 c.2,
               Ev.putSpec c.1 c.2 (chunkCube data c.2 ncor),
               Ev.putScalar c.1 c.2 (chunkScal flagRow stdRed data stat ncor c.1 c.2)])
            ++ [Ev.close]
        ∧ List.Pairwise (fun a b => a < b) (chunks.map Prod.fst) := by
  refine ⟨(rangeStep 0 nrows (rcEff nrows rowchunk)).map
      (fun r0 => (r0, min (rcEff nrows rowchunk) (nrows - r0))), ?_, ?_⟩
  · simp only [writeToms]
    rw [if_neg hrc]
    rw [writeTomsLoop_ok flagRow ok stdRed nrows ncor data stat
      (rcEff nrows rowchunk) hok]
    rw [List.flatMap_map]
  · rw [List.map_map]
    have hid : (Prod.fst ∘ fun r0 => (r0, min (rcEff nrows rowchunk) (nrows - r0)))
        = id := by
      funext r0
      rfl
    rw [hid, List.map_id]
    exact rangeStep_pairwise 0 nrows (rcEff nrows rowchunk) (Nat.pos_of_ne_zero hrc)

/-- C8 witness: two rows written in chunks of one row each; the trace is
    the two ordered blocks and the offsets 0, 1 are strictly increasing. -/
theorem C8_chunk_ordering_witness :
    ∃ chunks : List (ℕ × ℕ),
      (writeToms (fun _ => [[false]]) (fun _ => true) (fun _ _ => []) 2 1 [3]
          Stat.sum (some 1)).1
          = chunks.flatMap (fun c =>
              [Ev.getFlags c.1 c.2,
               Ev.putSpec c.1 c.2 (chunkCube [3] c.2 1),
               Ev.putScalar c.1 c.2
                 (chunkScal (fun _ => [[false]]) (fun _ _ => []) [3] Stat.sum 1 c.1 c.2)])
            ++ [Ev.close]
        ∧ List.Pairwise (fun a b => a < b) (chunks.map Prod.fst) := by
  exact C8_chunk_ordering (fun _ => [[false]]) (fun _ => true) (fun _ _ => []) 2 1 [3]
    Stat.sum (some 1) (fun _ => rfl) (by decide)

/-- C4 counterexample: with 5 rows and no explicit chunk size the default
    is 5/10 = 0 (Python 2 floor division), range(0, 5, 0) raises
    ValueError, the run fails with an empty trace and no row is written at
    all, contradicting the claim that every row is written exactly once. -/
theorem C4_counterexample :
    writeToms (fun _ => []) (fun _ => true) (fun _ _ => []) 5 1 [1] Stat.sum none
        = ([], false)
      ∧ specRows (writeToms (fun _ => []) (fun _ => true) (fun _ _ => []) 5 1 [1]
          Stat.sum none).1 ≠ List.range 5 := by
  constructor
  · decide
  · decide

/-- C4 amended: whenever the effective chunk size is nonzero (an explicit
    positive rowchunk, or the default floor(nrows/10) with nrows at least
    10) and the store calls succeed, the spectral writes of write_toms
    cover the rows 0..nrows-1 exactly once, in order, with the final chunk
    truncated to the remaining rows; and when the effective chunk size is
    zero the run fails before writing anything. -/
theorem C4_chunks_cover_rows_once (flagRow : ℕ → List (List Bool)) (ok : Ev → Bool)
    (stdRed : List (List ℚ) → List (List Bool) → List ℚ)
    (nrows ncor : ℕ) (data : List ℚ) (stat : Stat) (rowchunk : Option ℕ)
    (hok : ∀ e, ok e = true) :
    (rcEff nrows rowchunk ≠ 0 →
      specRows (writeToms flagRow ok stdRed nrows ncor data stat rowchunk).1
        = List.range nrows)
    ∧ (rcEff nrows rowchunk = 0 →
        writeToms flagRow ok stdRed nrows ncor data stat rowchunk = ([], false)) := by
  constructor
  · intro hrc
    simp only [writeToms]
    rw [if_neg hrc]
    rw [writeTomsLoop_ok flagRow ok stdRed nrows ncor data stat
      (rcEff nrows rowchunk) hok]
    simp only [specRows, List.flatMap_append, List.flatMap_assoc, List.flatMap_cons,
      List.flatMap_nil, List.append_nil, List.nil_append]
    rw [rangeStep_cover nrows (rcEff nrows rowchunk) (Nat.pos_of_ne_zero hrc)]
    rw [List.range_eq_range']
  · intro hrc
    simp only [writeToms]
    rw [if_pos hrc]

/-- C4 amended witness: 20 rows with the default chunking (chunk size 2)
    are written exactly once in order. -/
theorem C4_chunks_cover_rows_once_witness :
    specRows (writeToms (fun _ => []) (fun _ => true) (fun _ _ => []) 20 1 [1]
        Stat.sum none).1
      = List.range 20 := by
  exact (C4_chunks_cover_rows_once (fun _ => []) (fun _ => true) (fun _ _ => []) 20 1
    [1] Stat.sum none (fun _ => rfl)).1 (by decide)

/-- C9: every scalar-column write of a sum-statistic run whose rows are
    fully flagged (every flag of the chunk's rows is true, with at least
    ncor flags per channel row) carries the zero matrix: the masked sum
    over zero unflagged samples is 0 for every row and correlation. -/
theorem C9_fully_flagged_sum_zero (flagRow : ℕ → List (List Bool)) (ok : Ev → Bool)
    (stdRed : List (List ℚ) → List (List Bool) → List ℚ)
    (nrows ncor : ℕ) (data : List ℚ) (rowchunk : Option ℕ) (r0 nr : ℕ)
    (d : List (List ℚ))
    (hmem : Ev.putScalar r0 nr d
      ∈ (writeToms flagRow ok stdRed nrows ncor data Stat.sum rowchunk).1)
    (hflag : ∀ r, r < nr → ∀ ch ∈ flagRow (r0 + r),
        ncor ≤ ch.length ∧ ∀ b ∈ ch, b = true) :
    d = List.replicate nr (List.replicate ncor (0 : ℚ)) := by
  simp only [writeToms] at hmem
  by_cases hrc : rcEff nrows rowchunk = 0
  · rw [if_pos hrc] at hmem
    simp at hmem
  · rw [if_neg hrc] at hmem
    have hd := writeTomsLoop_putScalar flagRow ok stdRed nrows ncor data Stat.sum
      (rcEff nrows rowchunk) (rangeStep 0 nrows (rcEff nrows rowchunk)) r0 nr d hmem
    rw [hd]
    exact chunkScal_sum_allFlagged_replicate flagRow stdRed data ncor r0 nr hflag

/-- C9 witness: one fully flagged chunk of two rows and one correlation;
    the scalar data written is the 2 x 1 zero matrix. -/
theorem C9_fully_flagged_sum_zero_witness :
    [[(0 : ℚ)], [0]] = List.replicate 2 (List.replicate 1 (0 : ℚ)) := by
  have htr : writeToms (fun _ => [[true]]) (fun _ => true) (fun _ _ => []) 2 1 [3]
      Stat.sum (some 2)
      = ([Ev.getFlags 0 2, Ev.putSpec 0 2 [[[3]], [[3]]],
          Ev.putScalar 0 2 [[0], [0]], Ev.close], true) := by
    norm_num [writeToms, rcEff, rangeStep, rangeStepAux, writeTomsLoop, chunkScal,
      chunkCube, chunkFlags, maskedSumRow, List.replicate_succ, List.range_succ]
  exact C9_fully_flagged_sum_zero (fun _ => [[true]]) (fun _ => true) (fun _ _ => [])
    2 1 [3] (some 2) 0 2 [[0], [0]] (by rw [htr]; simp) (by decide)
